import Mathlib

/-!
Verification of the syntax-highlighter core of `dstaley/ssgen`
(`src/src/prettier.ts`, the highlighter module).  The definitions below are a
shallow embedding of that module: TypeScript numbers on the 32-bit paths are
modelled as `Nat` (every masked field is small), JavaScript arrays as `List`,
insertion-ordered `Map`s as association lists, and values that may be
`undefined` at runtime as `Option`.  The external TextMate tokenizer
(`vscode-textmate`) is modelled as an abstract record of pure functions, as
the spec treats it (an opaque capability returning two token views plus a
continuation state).
-/

set_option maxHeartbeats 1000000

namespace SSGen

/-- `FontStyle` constants (prettier.ts lines 40-46). -/
def FontStyle.None : Nat := 0

/-- Italic flag bit. -/
def FontStyle.Italic : Nat := 1

/-- Bold flag bit. -/
def FontStyle.Bold : Nat := 2

/-- Underline flag bit. -/
def FontStyle.Underline : Nat := 4

/-- `MetadataConsts.FONT_STYLE_MASK` (prettier.ts line 73). -/
def MetadataConsts.FONT_STYLE_MASK : Nat := 0b00000000000000000011100000000000

/-- `MetadataConsts.FOREGROUND_MASK` (prettier.ts line 74). -/
def MetadataConsts.FOREGROUND_MASK : Nat := 0b00000000011111111100000000000000

/-- `MetadataConsts.FONT_STYLE_OFFSET` (prettier.ts line 79). -/
def MetadataConsts.FONT_STYLE_OFFSET : Nat := 11

/-- `MetadataConsts.FOREGROUND_OFFSET` (prettier.ts line 80). -/
def MetadataConsts.FOREGROUND_OFFSET : Nat := 14

/-- `getFontStyle` (prettier.ts lines 84-89):
`(metadata & FONT_STYLE_MASK) >>> FONT_STYLE_OFFSET`. -/
def getFontStyle (metadata : Nat) : Nat :=
  (metadata &&& MetadataConsts.FONT_STYLE_MASK) >>> MetadataConsts.FONT_STYLE_OFFSET

/-- `getForeground` (prettier.ts lines 91-96):
`(metadata & FOREGROUND_MASK) >>> FOREGROUND_OFFSET`. -/
def getForeground (metadata : Nat) : Nat :=
  (metadata &&& MetadataConsts.FOREGROUND_MASK) >>> MetadataConsts.FOREGROUND_OFFSET

/-- `DecodedTokenMeta` (prettier.ts lines 98-104). -/
structure DecodedTokenMeta where
  classNames : List String
  bold : Bool
  italic : Bool
  underline : Bool
  foreground : Nat
  deriving DecidableEq, Repr

/-- `getTokenDataFromMetadata` (prettier.ts lines 110-136).  The class list is
built by the source's push sequence: the foreground class first, then `mtki`
when italic, `mtkb` when bold, `mtku` when underline. -/
def getTokenDataFromMetadata (metadata : Nat) : DecodedTokenMeta :=
  let foreground := getForeground metadata
  let fontStyle := getFontStyle metadata
  let italic : Bool := (fontStyle &&& FontStyle.Italic) != 0
  let bold : Bool := (fontStyle &&& FontStyle.Bold) != 0
  let underline : Bool := (fontStyle &&& FontStyle.Underline) != 0
  let classNames : List String :=
    ["mtk" ++ toString foreground]
      ++ (if italic then ["mtki"] else [])
      ++ (if bold then ["mtkb"] else [])
      ++ (if underline then ["mtku"] else [])
  ⟨classNames, bold, italic, underline, foreground⟩

/-- `ParsedLine` (prettier.ts lines 217-221): one renderable segment of a
line.  The source field `end` is a Lean keyword, written `«end»` here.  In the
source `classNames` is typed `string[]`, but `highlightText` (line 370) stores
`classNameMap.get(...)`, which can be `undefined` at runtime, so the element
type is modelled as `Option String` (`none` = `undefined`). -/
structure ParsedLine where
  start : Nat
  «end» : Nat
  classNames : List (Option String)
  deriving DecidableEq, Repr

/-- `arraysAreEqual` (prettier.ts lines 223-234): length check plus an
element-wise `!==` loop, written as the equivalent structural recursion. -/
def arraysAreEqual {α : Type} [BEq α] : List α → List α → Bool
  | [], [] => true
  | a :: as, b :: bs => a == b && arraysAreEqual as bs
  | _, _ => false

/-- One iteration of the `forEach` in `mergeConsecutiveSegments`
(prettier.ts lines 239-252).  The state is `(mergedSegments, previousSegment)`
with `mergedSegments` kept in reverse order; in the source `previousSegment`
aliases the object last pushed into `mergedSegments`, so the in-place
`previousSegment.end = segment.end` also rewrites the list head. -/
def mergeForEachStep :
    List ParsedLine × Option ParsedLine → ParsedLine →
      List ParsedLine × Option ParsedLine
  | (rev, none), segment => (segment :: rev, some segment)
  | (rev, some previousSegment), segment =>
    if previousSegment.«end» == segment.start
        && arraysAreEqual previousSegment.classNames segment.classNames then
      let merged := { previousSegment with «end» := segment.«end» }
      ((match rev with | [] => [merged] | _ :: t => merged :: t), some merged)
    else
      (segment :: rev, some segment)

/-- `mergeConsecutiveSegments` (prettier.ts lines 236-254). -/
def mergeConsecutiveSegments (segments : List ParsedLine) : List ParsedLine :=
  ((segments.foldl mergeForEachStep ([], none)).1).reverse

/-- The merge pass as the claim words it: scan the segments in order with a
running accumulator; merge segment `k` into the accumulator exactly when the
accumulator's `end` equals `segments[k].start` and the two `classNames`
sequences are element-wise equal, a merge replacing only the accumulator's
`end`; otherwise flush the accumulator and restart from segment `k`. -/
def mergeScan (acc : ParsedLine) : List ParsedLine → List ParsedLine
  | [] => [acc]
  | segment :: rest =>
    if acc.«end» = segment.start ∧ acc.classNames = segment.classNames then
      mergeScan { acc with «end» := segment.«end» } rest
    else
      acc :: mergeScan segment rest

/-- The claim-worded merge pass over a whole segment list. -/
def mergeSpecFn : List ParsedLine → List ParsedLine
  | [] => []
  | segment :: rest => mergeScan segment rest

/-- The scanning loop of `getMetaAtPosition` (prettier.ts lines 197-206),
over the suffix `tokens[i..]` of the flat stream.  At index `i` the source
reads `start = tokens[i]`, `end = tokens[i+2]`, returns `tokens[i+1]` when
`start <= position && position < end`, else advances `i += 2`.  When
`tokens[i+2]` is out of bounds it is `undefined` and the comparison is false,
so only the three-element pattern can return; every other shape falls through
to the caller's fallback (`none` here). -/
def getMetaScan (position : Nat) : List Nat → Option Nat
  | [] => none
  | [_] => none
  | start :: meta :: tl =>
    match tl with
    | stop :: _ =>
      if start ≤ position ∧ position < stop then some meta
      else getMetaScan position tl
    | [] => none

/-- `getMetaAtPosition` (prettier.ts lines 197-206).  The result is `Option`
because `last(tokens)` (prettier.ts lines 193-195, `arr[arr.length - 1]`) is
`undefined` on an empty stream. -/
def getMetaAtPosition (tokens : List Nat) (position : Nat) : Option Nat :=
  match getMetaScan position tokens with
  | some meta => some meta
  | none => tokens.getLast?

/-- JavaScript's WhiteSpace plus LineTerminator set, the characters removed
by `String.prototype.trim`. -/
def isJSWhitespace (c : Char) : Bool :=
  c.toNat = 9 || c.toNat = 10 || c.toNat = 11 || c.toNat = 12 || c.toNat = 13
    || c.toNat = 32 || c.toNat = 160 || c.toNat = 0x1680
    || (0x2000 ≤ c.toNat && c.toNat ≤ 0x200A)
    || c.toNat = 0x2028 || c.toNat = 0x2029 || c.toNat = 0x202F
    || c.toNat = 0x205F || c.toNat = 0x3000 || c.toNat = 0xFEFF

/-- JavaScript `String.prototype.trim`: drop whitespace from both ends. -/
def jsTrim (s : List Char) : List Char :=
  ((s.dropWhile isJSWhitespace).reverse.dropWhile isJSWhitespace).reverse

/-- JavaScript `String.prototype.slice(start, end)` on a list of UTF-16
units, for `0 ≤ start`, `0 ≤ end` (the source only passes token offsets):
clamps to the length and yields `""` when `end ≤ start`. -/
def jsSlice (s : List Char) (start stop : Nat) : List Char :=
  (s.drop start).take (stop - start)

/-- Model of the external `he.encode(text, { useNamedReferences: true })`
call for one character: the HTML-significant characters the spec names are
replaced by named character references, everything else passes through. -/
def heEncodeChar (c : Char) : String :=
  if c = '&' then "&amp;"
  else if c = '<' then "&lt;"
  else if c = '>' then "&gt;"
  else if c = Char.ofNat 34 then "&quot;"
  else if c = Char.ofNat 39 then "&apos;"
  else String.singleton c

/-- Model of the external `he.encode(text, { useNamedReferences: true })`. -/
def heEncode (s : String) : String :=
  String.join (s.toList.map heEncodeChar)

/-- JavaScript `Array.prototype.join(" ")` over the class list: `undefined`
entries become the empty string. -/
def jsJoinClasses (classNames : List (Option String)) : String :=
  String.intercalate " " (classNames.map (fun c => c.getD ""))

/-- The body of the `forEach` in `codeToHTML` (prettier.ts lines 258-268):
emit one (already merged) segment. -/
def emitSegment (line : String) (segment : ParsedLine) : String :=
  let text := jsSlice line.toList segment.start segment.«end»
  if jsTrim text ≠ [] then
    "<span class=\"" ++ jsJoinClasses segment.classNames ++ "\">"
      ++ heEncode (String.mk text) ++ "</span>"
  else
    String.mk text

/-- `codeToHTML` (prettier.ts lines 256-270): merge the segments, then
concatenate the per-segment emissions. -/
def codeToHTML (line : String) (segments : List ParsedLine) : String :=
  String.join ((mergeConsecutiveSegments segments).map (emitSegment line))

/-- `IRawThemeSetting.settings` as the highlighter reads it: only the
(optional) foreground color matters. -/
structure TokenColorSettings where
  foreground : Option String
  deriving DecidableEq, Repr

/-- One entry of `theme.tokenColors`. -/
structure TokenColor where
  settings : TokenColorSettings
  deriving DecidableEq, Repr

/-- `PublicTheme` (prettier.ts lines 138-142); the `colors` object is an
association list keyed by strings. -/
structure PublicTheme where
  name : String
  colors : List (String × String)
  tokenColors : List TokenColor
  deriving DecidableEq, Repr

/-- JavaScript uppercasing of the (ASCII hex) color strings the theme holds. -/
def jsToUpper (s : String) : String :=
  String.mk (s.toList.map Char.toUpper)

/-- JavaScript truthiness of `token.settings.foreground`: defined and not the
empty string. -/
def truthyForeground : Option String → Bool
  | none => false
  | some s => s != ""

/-- One iteration of the `forEach` in `createClassNameMap` (prettier.ts
lines 152-159).  The state is the insertion-ordered map (an association
list) together with `colorIndex`. -/
def createClassNameMapStep (st : List (String × String) × Nat)
    (foreground : Option String) : List (String × String) × Nat :=
  if truthyForeground foreground then
    let color := jsToUpper (foreground.getD "")
    if (st.1.lookup color).isSome then st
    else (st.1 ++ [(color, "mtk" ++ toString st.2)], st.2 + 1)
  else st

/-- `createClassNameMap` (prettier.ts lines 144-162): the virtual entry list
is the default foreground (`colors["editor.foreground"] ?? "#000000"`)
followed by `theme.tokenColors`, processed in order. -/
def createClassNameMap (theme : PublicTheme) : List (String × String) :=
  let defaultForeground : Option String :=
    some ((theme.colors.lookup "editor.foreground").getD "#000000")
  ((defaultForeground :: theme.tokenColors.map (fun t => t.settings.foreground)).foldl
    createClassNameMapStep ([], 0)).1

/-- Insert a color into the first-occurrence list if it is not there yet
(the claim's "first occurrence wins" order). -/
def insertFirst (acc : List String) (color : String) : List String :=
  if color ∈ acc then acc else acc ++ [color]

/-- The keys `createClassNameMap` should produce, per the claim: the
uppercased non-empty foregrounds of the virtual entry list, in order of
first occurrence. -/
def firstOccurrences (colors : List String) : List String :=
  colors.foldl insertFirst []

/-- The uppercased non-empty foregrounds of the theme's virtual entry list,
in processing order (the claim's description of what gets inserted). -/
def virtualForegrounds (theme : PublicTheme) : List String :=
  ((some ((theme.colors.lookup "editor.foreground").getD "#000000")
      :: theme.tokenColors.map (fun t => t.settings.foreground)).filter
    truthyForeground).map (fun fg => jsToUpper (fg.getD ""))

/-- The `GrammarKey` string-enum values (prettier.ts lines 272-282). -/
def GrammarKey.JAVASCRIPT : String := "source.js"

/-- TypeScript grammar id. -/
def GrammarKey.TYPESCRIPT : String := "source.ts"

/-- Go grammar id. -/
def GrammarKey.GO : String := "source.go"

/-- Dart grammar id. -/
def GrammarKey.DART : String := "source.dart"

/-- HTML grammar id. -/
def GrammarKey.HTML : String := "text.html.basic"

/-- CSS grammar id. -/
def GrammarKey.CSS : String := "source.css"

/-- Plain-text grammar id. -/
def GrammarKey.TEXT : String := "text.plain"

/-- Handlebars grammar id. -/
def GrammarKey.HANDLEBARS : String := "text.html.handlebars"

/-- YAML grammar id. -/
def GrammarKey.YAML : String := "source.yaml"

/-- `extensionToGrammarKey` (prettier.ts lines 296-305): the fixed
extension table, an object literal with `Object.prototype` as prototype. -/
def extensionToGrammarKey : List (String × String) :=
  [("js", GrammarKey.JAVASCRIPT), ("ts", GrammarKey.TYPESCRIPT),
   ("go", GrammarKey.GO), ("dart", GrammarKey.DART),
   ("html", GrammarKey.HTML), ("css", GrammarKey.CSS),
   ("handlebars", GrammarKey.HANDLEBARS), ("yaml", GrammarKey.YAML)]

/-- The property names JavaScript's `in` operator also finds on a plain
object literal, inherited from `Object.prototype`. -/
def objectPrototypeProps : List String :=
  ["constructor", "hasOwnProperty", "isPrototypeOf", "propertyIsEnumerable",
   "toLocaleString", "toString", "valueOf", "__defineGetter__",
   "__defineSetter__", "__lookupGetter__", "__lookupSetter__", "__proto__"]

/-- JavaScript's `key in obj` for an object literal: an own property or one
inherited from `Object.prototype`. -/
def jsInOperator (key : String) (obj : List (String × String)) : Bool :=
  (obj.lookup key).isSome || objectPrototypeProps.contains key

/-- What `Highlighter.syntaxName` evaluates to: either a grammar-key string
read off the table (or the plain-text fallback), or a value inherited from
`Object.prototype` (a function object, not a grammar key). -/
inductive SyntaxNameResult where
  | grammar (key : String)
  | inheritedProperty (name : String)
  deriving DecidableEq, Repr

/-- `Highlighter.syntaxName` (prettier.ts lines 330-340), paired with the
list of `console.log` diagnostics it emits.  The source guard is
`if (tag in extensionToGrammarKey)`, and `in` walks the prototype chain, so
a tag such as `"toString"` passes the guard and the subsequent read
`extensionToGrammarKey[tag]` yields the inherited `Object.prototype` member
rather than a table entry. -/
def syntaxName (tag : String) : SyntaxNameResult × List String :=
  if jsInOperator tag extensionToGrammarKey then
    match extensionToGrammarKey.lookup tag with
    | some key => (SyntaxNameResult.grammar key, [])
    | none => (SyntaxNameResult.inheritedProperty tag, [])
  else if tag != "" then
    (SyntaxNameResult.grammar GrammarKey.TEXT,
     ["Unsupported grammar <" ++ tag ++ ">. Falling back to plain text"])
  else
    (SyntaxNameResult.grammar GrammarKey.TEXT, [])

/-- A character-offset token from `grammar.tokenizeLine` (vscode-textmate's
`IToken`, restricted to the fields the highlighter reads). -/
structure TokenSpan where
  startIndex : Nat
  endIndex : Nat
  deriving DecidableEq, Repr

/-- The external TextMate tokenizer, as the spec treats it: an opaque
capability over an opaque rule-stack type `S`.  `tokenizeLine2` returns the
flat packed stream (alternating offset, packedMetadata) plus the next rule
stack; `tokenizeLine` returns character-offset spans plus the next rule
stack.  Both are pure functions of `(line, state)`. -/
structure Grammar (S : Type) where
  tokenizeLine2 : String → S → List Nat × S
  tokenizeLine : String → S → List TokenSpan × S

/-- The class-name resolution of one token inside `highlightText`
(prettier.ts lines 366-380): the head entry is
`classNameMap.get(colorMap[metadata.foreground])` (possibly `undefined`),
followed by the style flags pushed in the order bold, italic, underline. -/
def resolveSegmentClassNames (classNameMap : List (String × String))
    (colorMap : List String) (metadata : DecodedTokenMeta) :
    List (Option String) :=
  ((colorMap.get? metadata.foreground).bind (fun color => classNameMap.lookup color))
    :: ((if metadata.bold then [some "mtkb"] else [])
      ++ (if metadata.italic then [some "mtki"] else [])
      ++ (if metadata.underline then [some "mtku"] else []))

/-- The per-line segment construction of `highlightText` (prettier.ts lines
364-386): one `ParsedLine` per character-offset token, whose metadata is the
packed value at the token's `startIndex`.  In the source a missing packed
value (`undefined`, empty stream) flows into the bit masks where
`undefined & mask` is `0`, hence the `getD 0`. -/
def segmentsOfLine (classNameMap : List (String × String))
    (colorMap : List String) (packedTokens : List Nat)
    (full : List TokenSpan) : List ParsedLine :=
  full.map (fun token =>
    let metadata := getTokenDataFromMetadata
      ((getMetaAtPosition packedTokens token.startIndex).getD 0)
    { start := token.startIndex
      «end» := token.endIndex
      classNames := resolveSegmentClassNames classNameMap colorMap metadata })

/-- The line loop of `Highlighter.highlightText` (prettier.ts lines
357-391): per line call `tokenizeLine2` and `tokenizeLine` on the identical
`(line, ruleStack)` pair, build segments, render the line, and continue with
the packed call's rule stack. -/
def highlightLines {S : Type} (g : Grammar S) (classNameMap : List (String × String))
    (colorMap : List String) : S → List String → List String
  | _, [] => []
  | ruleStack, line :: rest =>
    let binary := g.tokenizeLine2 line ruleStack
    let full := (g.tokenizeLine line ruleStack).1
    let segments := segmentsOfLine classNameMap colorMap binary.1 full
    codeToHTML line segments :: highlightLines g classNameMap colorMap binary.2 rest

/-- `Highlighter.highlightText` (prettier.ts lines 353-394): the joined
per-line HTML wrapped in the `<pre><code>` block.  `initState` is the
`INITIAL` sentinel the source starts from. -/
def highlightText {S : Type} (g : Grammar S) (classNameMap : List (String × String))
    (colorMap : List String) (initState : S) (text : List String) : String :=
  "<pre><code>"
    ++ String.intercalate "\n" (highlightLines g classNameMap colorMap initState text)
    ++ "</code></pre>"

/-- The rule-stack chain the claim describes: `state_0` is the sentinel and
`state_(i+1)` is the `nextState` of the packed-metadata call on
`(line_i, state_i)`. -/
def ruleStackAt {S : Type} (g : Grammar S) (text : List String) (initState : S) :
    Nat → S
  | 0 => initState
  | i + 1 => (g.tokenizeLine2 (text.getD i "") (ruleStackAt g text initState i)).2

/-- The claim's per-line HTML: both tokenizer views taken at the identical
pair `(line_i, state_i)`, segments built from them, rendered with the
segment renderer. -/
def specLineHTML {S : Type} (g : Grammar S) (classNameMap : List (String × String))
    (colorMap : List String) (text : List String) (initState : S) (i : Nat) : String :=
  let st := ruleStackAt g text initState i
  let line := text.getD i ""
  codeToHTML line (segmentsOfLine classNameMap colorMap
    (g.tokenizeLine2 line st).1 (g.tokenizeLine line st).1)

/-- Two segments cannot be merged: they do not abut with identical class
lists. -/
def notMergeable (a b : ParsedLine) : Prop :=
  ¬(a.«end» = b.start ∧ a.classNames = b.classNames)

/-- The emission pass as the claim words it: extract `line[start:end]`; a
whitespace-only (possibly empty) extract is emitted verbatim with no
wrapping span, anything else as a `<span>` whose `class` attribute is the
class names joined by single spaces and whose body is the HTML-escaped
text. -/
def emitSpecSegment (line : String) (segment : ParsedLine) : String :=
  let text := jsSlice line.toList segment.start segment.«end»
  if text.all isJSWhitespace then
    String.mk text
  else
    "<span class=\"" ++ jsJoinClasses segment.classNames ++ "\">"
      ++ heEncode (String.mk text) ++ "</span>"

/-- The flat packed stream built from its (offset, packedMetadata) pairs. -/
def flattenPairs : List (Nat × Nat) → List Nat
  | [] => []
  | (offset, meta) :: rest => offset :: meta :: flattenPairs rest

/-- The text a segment list covers: the concatenation, in order, of
`line[start:end]` over the segments. -/
def coveredText (line : List Char) (segments : List ParsedLine) : List Char :=
  (segments.map (fun s => jsSlice line s.start s.«end»)).flatten

/-! ### Theorems -/

theorem fontStyle_lt_eight (m : Nat) : getFontStyle m < 8 := by
  have h1 : m &&& MetadataConsts.FONT_STYLE_MASK ≤ MetadataConsts.FONT_STYLE_MASK :=
    Nat.and_le_right
  have h2 : (m &&& MetadataConsts.FONT_STYLE_MASK) >>> 11
      ≤ MetadataConsts.FONT_STYLE_MASK >>> 11 := by
    simpa [Nat.shiftRight_eq_div_pow] using Nat.div_le_div_right (c := 2 ^ 11) h1
  have h3 : MetadataConsts.FONT_STYLE_MASK >>> 11 = 7 := by decide
  have h4 : getFontStyle m ≤ 7 := by
    simpa [getFontStyle, MetadataConsts.FONT_STYLE_OFFSET, h3] using h2
  omega

theorem foreground_le (m : Nat) : getForeground m ≤ 511 := by
  have h1 : m &&& MetadataConsts.FOREGROUND_MASK ≤ MetadataConsts.FOREGROUND_MASK :=
    Nat.and_le_right
  have h2 : (m &&& MetadataConsts.FOREGROUND_MASK) >>> 14
      ≤ MetadataConsts.FOREGROUND_MASK >>> 14 := by
    simpa [Nat.shiftRight_eq_div_pow] using Nat.div_le_div_right (c := 2 ^ 14) h1
  have h3 : MetadataConsts.FOREGROUND_MASK >>> 14 = 511 := by decide
  simpa [getForeground, MetadataConsts.FOREGROUND_OFFSET, h3] using h2

theorem flag_testBit (n : Nat) (h : n < 8) :
    ((n &&& 1) != 0) = n.testBit 0 ∧ ((n &&& 2) != 0) = n.testBit 1
      ∧ ((n &&& 4) != 0) = n.testBit 2 := by
  interval_cases n <;> exact ⟨rfl, rfl, rfl⟩

/-- Claim C2: `getTokenDataFromMetadata` decodes every 32-bit packed value as
a pure total function: the foreground is the 9-bit field
`(m & 0x7FC000) >>> 14` (so at most 511, and exact at the boundary field
values 0 and 511), the font style is the 3-bit field `(m & 0x3800) >>> 11`
with italic its bit 0, bold its bit 1 and underline its bit 2, and the class
list is exactly `"mtk" + foreground` first, then `"mtki"` when italic, then
`"mtkb"` when bold, then `"mtku"` when underline, in that order. -/
theorem decode_metadata_fields (m : Nat) :
    (getTokenDataFromMetadata m).foreground = (m &&& 0x7FC000) >>> 14
    ∧ getFontStyle m = (m &&& 0x3800) >>> 11
    ∧ (getTokenDataFromMetadata m).italic = (getFontStyle m).testBit 0
    ∧ (getTokenDataFromMetadata m).bold = (getFontStyle m).testBit 1
    ∧ (getTokenDataFromMetadata m).underline = (getFontStyle m).testBit 2
    ∧ (getTokenDataFromMetadata m).classNames =
        ("mtk" ++ toString ((m &&& 0x7FC000) >>> 14))
          :: ((if (getFontStyle m).testBit 0 then ["mtki"] else [])
            ++ (if (getFontStyle m).testBit 1 then ["mtkb"] else [])
            ++ (if (getFontStyle m).testBit 2 then ["mtku"] else []))
    ∧ (getTokenDataFromMetadata m).foreground ≤ 511
    ∧ (getTokenDataFromMetadata 0).foreground = 0
    ∧ (getTokenDataFromMetadata (511 <<< 14)).foreground = 511 := by
  obtain ⟨h1, h2, h4⟩ := flag_testBit (getFontStyle m) (fontStyle_lt_eight m)
  refine ⟨rfl, rfl, ?_, ?_, ?_, ?_, foreground_le m, by decide, by decide⟩
  · simpa [getTokenDataFromMetadata, FontStyle.Italic] using h1
  · simpa [getTokenDataFromMetadata, FontStyle.Bold] using h2
  · simpa [getTokenDataFromMetadata, FontStyle.Underline] using h4
  · simp [getTokenDataFromMetadata, FontStyle.Italic, FontStyle.Bold,
      FontStyle.Underline, h1, h2, h4, getForeground,
      MetadataConsts.FOREGROUND_MASK, MetadataConsts.FOREGROUND_OFFSET]

theorem arraysAreEqual_eq_true_iff {α : Type} [BEq α] [LawfulBEq α] :
    ∀ a b : List α, arraysAreEqual a b = true ↔ a = b := by
  intro a
  induction a with
  | nil => intro b; cases b <;> simp [arraysAreEqual]
  | cons x xs ih =>
    intro b
    cases b with
    | nil => simp [arraysAreEqual]
    | cons y ys => simp [arraysAreEqual, ih]

theorem mergeCond_iff (p s : ParsedLine) :
    (p.«end» == s.start && arraysAreEqual p.classNames s.classNames) = true
      ↔ p.«end» = s.start ∧ p.classNames = s.classNames := by
  simp [arraysAreEqual_eq_true_iff]

theorem mergeForEach_scan_eq :
    ∀ (rest : List ParsedLine) (rev : List ParsedLine) (prev : ParsedLine),
      ((rest.foldl mergeForEachStep (prev :: rev, some prev)).1).reverse
        = rev.reverse ++ mergeScan prev rest := by
  intro rest
  induction rest with
  | nil => intro rev prev; simp [mergeScan]
  | cons s rest ih =>
    intro rev prev
    by_cases h : prev.«end» = s.start ∧ prev.classNames = s.classNames
    · have hb : (prev.«end» == s.start
          && arraysAreEqual prev.classNames s.classNames) = true :=
        (mergeCond_iff prev s).mpr h
      simp only [List.foldl_cons, mergeForEachStep, hb, if_true]
      rw [ih rev { prev with «end» := s.«end» }]
      rw [mergeScan, if_pos h]
    · have hb : (prev.«end» == s.start
          && arraysAreEqual prev.classNames s.classNames) = false := by
        rcases Bool.eq_false_or_eq_true (prev.«end» == s.start
          && arraysAreEqual prev.classNames s.classNames) with ht | hf
        · exact absurd ((mergeCond_iff prev s).mp ht) h
        · exact hf
      simp only [List.foldl_cons, mergeForEachStep, hb, Bool.false_eq_true, if_false]
      rw [ih (prev :: rev) s]
      rw [mergeScan, if_neg h]
      simp

theorem mergeConsecutiveSegments_eq_spec (segments : List ParsedLine) :
    mergeConsecutiveSegments segments = mergeSpecFn segments := by
  cases segments with
  | nil => rfl
  | cons s rest =>
    show ((List.foldl mergeForEachStep (mergeForEachStep ([], none) s) rest).1).reverse
      = mergeSpecFn (s :: rest)
    have h0 : mergeForEachStep ([], none) s = ([s], some s) := rfl
    rw [h0]
    simpa using mergeForEach_scan_eq rest [] s

/-- Claim C4: the merge pass scans the segments in order and merges segment
`k` into the running accumulator exactly when the accumulator's `end` equals
`segments[k].start` and the two `classNames` sequences are element-wise
equal (the Boolean `arraysAreEqual` decides exactly that), a merge extending
the accumulator's `end` to `segments[k].end` and changing nothing else:
`mergeConsecutiveSegments` coincides with the claim-worded scan. -/
theorem merge_pass_spec :
    (∀ segments : List ParsedLine,
      mergeConsecutiveSegments segments = mergeSpecFn segments)
    ∧ (∀ (acc segment : ParsedLine) (rest : List ParsedLine),
      mergeScan acc (segment :: rest)
        = if acc.«end» = segment.start ∧ acc.classNames = segment.classNames
          then mergeScan ⟨acc.start, segment.«end», acc.classNames⟩ rest
          else acc :: mergeScan segment rest)
    ∧ (∀ a b : List (Option String), arraysAreEqual a b = true ↔ a = b) := by
  refine ⟨mergeConsecutiveSegments_eq_spec, ?_, fun a b => arraysAreEqual_eq_true_iff a b⟩
  intro acc segment rest
  rfl

theorem mergeScan_head_eq :
    ∀ (rest : List ParsedLine) (acc : ParsedLine),
      ∃ e tl, mergeScan acc rest
        = ({ start := acc.start, «end» := e, classNames := acc.classNames } : ParsedLine) :: tl := by
  intro rest
  induction rest with
  | nil => intro acc; exact ⟨acc.«end», [], rfl⟩
  | cons s rest ih =>
    intro acc
    by_cases h : acc.«end» = s.start ∧ acc.classNames = s.classNames
    · obtain ⟨e, tl, he⟩ := ih { acc with «end» := s.«end» }
      exact ⟨e, tl, by rw [mergeScan, if_pos h]; exact he⟩
    · exact ⟨acc.«end», mergeScan s rest, by rw [mergeScan, if_neg h]⟩

theorem mergeScan_chain :
    ∀ (rest : List ParsedLine) (acc : ParsedLine),
      List.Chain' notMergeable (mergeScan acc rest) := by
  intro rest
  induction rest with
  | nil => intro acc; simp [mergeScan]
  | cons s rest ih =>
    intro acc
    by_cases h : acc.«end» = s.start ∧ acc.classNames = s.classNames
    · rw [mergeScan, if_pos h]; exact ih _
    · rw [mergeScan, if_neg h]
      obtain ⟨e, tl, he⟩ := mergeScan_head_eq rest s
      rw [he]
      refine List.Chain'.cons ?_ (he ▸ ih s)
      intro hc
      exact h ⟨hc.1, hc.2⟩

theorem mergeScan_of_chain :
    ∀ (rest : List ParsedLine) (acc : ParsedLine),
      List.Chain' notMergeable (acc :: rest) → mergeScan acc rest = acc :: rest := by
  intro rest
  induction rest with
  | nil => intro acc _; rfl
  | cons s rest ih =>
    intro acc hc
    have h1 : notMergeable acc s := (List.chain'_cons.mp hc).1
    rw [mergeScan, if_neg h1, ih s (List.chain'_cons.mp hc).2]

/-- Claim C5: the merge pass is a fixpoint after one pass — re-merging its
own output changes nothing — and, equivalently, its output never has two
consecutive segments that abut (previous `end` = next `start`) while
carrying element-wise equal `classNames`. -/
theorem merge_pass_fixpoint (segments : List ParsedLine) :
    mergeConsecutiveSegments (mergeConsecutiveSegments segments)
        = mergeConsecutiveSegments segments
    ∧ List.Chain'
        (fun a b => ¬(a.«end» = b.start ∧ a.classNames = b.classNames))
        (mergeConsecutiveSegments segments) := by
  rw [mergeConsecutiveSegments_eq_spec segments]
  constructor
  · rw [mergeConsecutiveSegments_eq_spec]
    cases h : mergeSpecFn segments with
    | nil => rfl
    | cons s tl =>
      show mergeScan s tl = s :: tl
      apply mergeScan_of_chain
      rw [← h]
      cases segments with
      | nil => simp [mergeSpecFn] at h
      | cons x rest => exact mergeScan_chain rest x
  · cases segments with
    | nil => simp [mergeSpecFn]
    | cons x rest => exact mergeScan_chain rest x

theorem jsTrim_eq_nil_iff (s : List Char) :
    jsTrim s = [] ↔ s.all isJSWhitespace = true := by
  unfold jsTrim
  rw [List.reverse_eq_nil_iff, List.dropWhile_eq_nil_iff, List.all_eq_true]
  constructor
  · intro h c hc
    rcases List.mem_append.mp
        ((List.takeWhile_append_dropWhile isJSWhitespace s) ▸ hc) with h1 | h1
    · exact List.mem_takeWhile_imp h1
    · exact h c (List.mem_reverse.mpr h1)
  · intro h c hc
    have hsub : s.dropWhile isJSWhitespace ⊆ s := by
      intro x hx
      exact (List.takeWhile_append_dropWhile isJSWhitespace s) ▸
        List.mem_append.mpr (Or.inr hx)
    exact h c (hsub (List.mem_reverse.mp hc))

/-- Claim C6: `codeToHTML` emits each merged segment from `line[start:end]`:
whitespace-only (including empty) text verbatim with no wrapping span,
anything else as `<span class="...">...</span>` with the class names joined
by one space and the text HTML-escaped with named character references for
`&`, `<`, `>`, `"`; in particular rendering `"   "` with one `mtk0` segment
over `[0,3)` yields exactly `"   "`. -/
theorem render_emission :
    (∀ (line : String) (segments : List ParsedLine),
      codeToHTML line segments
        = String.join ((mergeConsecutiveSegments segments).map (emitSpecSegment line)))
    ∧ (∀ (line : String) (segment : ParsedLine),
        emitSegment line segment = emitSpecSegment line segment)
    ∧ codeToHTML "   " [⟨0, 3, [some "mtk0"]⟩] = "   "
    ∧ heEncode "&" = "&amp;" ∧ heEncode "<" = "&lt;" ∧ heEncode ">" = "&gt;"
    ∧ heEncode (String.mk [Char.ofNat 34]) = "&quot;"
    ∧ (∀ names : List String,
        jsJoinClasses (names.map some) = String.intercalate " " names) := by
  have hemit : ∀ (line : String) (segment : ParsedLine),
      emitSegment line segment = emitSpecSegment line segment := by
    intro line segment
    unfold emitSegment emitSpecSegment
    by_cases h : (jsSlice line.toList segment.start segment.«end»).all isJSWhitespace = true
    · rw [if_neg (by simpa [jsTrim_eq_nil_iff] using h), if_pos h]
    · rw [if_pos (by simpa [Ne, jsTrim_eq_nil_iff] using h), if_neg h]
  refine ⟨?_, hemit, by decide, by decide, by decide, by decide, by decide, ?_⟩
  · intro line segments
    unfold codeToHTML
    exact congrArg String.join (List.map_congr_left (fun s _ => hemit line s))
  · intro names
    unfold jsJoinClasses
    rw [List.map_map]
    have hcomp : ((fun c : Option String => c.getD "") ∘ some)
        = (id : String → String) := by
      funext s; rfl
    rw [hcomp, List.map_id]

theorem jsSlice_append (l : List Char) (a b c : Nat) (hab : a ≤ b) (hbc : b ≤ c) :
    jsSlice l a b ++ jsSlice l b c = jsSlice l a c := by
  unfold jsSlice
  have h2 : c - a = (b - a) + (c - b) := by omega
  rw [h2, List.take_add]
  congr 2
  rw [List.drop_drop]
  congr 1
  omega

theorem coveredText_cons (line : List Char) (s : ParsedLine) (rest : List ParsedLine) :
    coveredText line (s :: rest)
      = jsSlice line s.start s.«end» ++ coveredText line rest := by
  simp [coveredText]

theorem coveredText_mergeScan (line : List Char) :
    ∀ (rest : List ParsedLine) (acc : ParsedLine),
      acc.start ≤ acc.«end» → (∀ s ∈ rest, s.start ≤ s.«end») →
      coveredText line (mergeScan acc rest)
        = jsSlice line acc.start acc.«end» ++ coveredText line rest := by
  intro rest
  induction rest with
  | nil => intro acc _ _; simp [mergeScan, coveredText]
  | cons s rest ih =>
    intro acc hacc hwf
    have hs : s.start ≤ s.«end» := hwf s (by simp)
    by_cases h : acc.«end» = s.start ∧ acc.classNames = s.classNames
    · rw [mergeScan, if_pos h]
      have hrec := ih { acc with «end» := s.«end» }
        (le_trans hacc (h.1 ▸ hs)) (fun x hx => hwf x (by simp [hx]))
      rw [hrec, coveredText_cons]
      dsimp only
      rw [← jsSlice_append line acc.start acc.«end» s.«end» hacc (h.1 ▸ hs),
        List.append_assoc, h.1]
    · rw [mergeScan, if_neg h, coveredText_cons, coveredText_cons,
        ih s hs (fun x hx => hwf x (by simp [hx]))]

/-- Claim C10 (counterexample): on a degenerate segment whose `end` precedes
its `start`, merging drops covered text — with line `"ab"` and segments
`[0,2)` and `[2,1)` (equal class lists, abutting starts), the merged output
covers `"a"` while the input covers `"ab"`. -/
theorem merge_covered_text_counterexample :
    coveredText "ab".toList
        (mergeConsecutiveSegments [⟨0, 2, [some "mtk0"]⟩, ⟨2, 1, [some "mtk0"]⟩])
      ≠ coveredText "ab".toList [⟨0, 2, [some "mtk0"]⟩, ⟨2, 1, [some "mtk0"]⟩] := by
  decide

/-- Claim C10 (amended): for every line and every ordered segment list whose
segments are well-formed (`start ≤ end`), the merge pass preserves the
covered text exactly — the concatenation of `line[start:end]` over the
merged output equals the concatenation over the input segments. -/
theorem merge_preserves_covered_text (line : List Char) (segments : List ParsedLine)
    (h : ∀ s ∈ segments, s.start ≤ s.«end») :
    coveredText line (mergeConsecutiveSegments segments)
      = coveredText line segments := by
  rw [mergeConsecutiveSegments_eq_spec]
  cases segments with
  | nil => rfl
  | cons s rest =>
    show coveredText line (mergeScan s rest) = _
    rw [coveredText_mergeScan line rest s (h s (by simp))
      (fun x hx => h x (by simp [hx])), coveredText_cons]

/-- Witness for the amended claim C10 at a concrete input. -/
theorem merge_preserves_covered_text_witness :
    (∀ s ∈ ([⟨0, 1, [some "mtk0"]⟩, ⟨1, 2, [some "mtk0"]⟩] : List ParsedLine),
      s.start ≤ s.«end»)
    ∧ coveredText "ab".toList
        (mergeConsecutiveSegments [⟨0, 1, [some "mtk0"]⟩, ⟨1, 2, [some "mtk0"]⟩])
      = coveredText "ab".toList [⟨0, 1, [some "mtk0"]⟩, ⟨1, 2, [some "mtk0"]⟩] :=
  ⟨by decide, merge_preserves_covered_text "ab".toList _ (by decide)⟩

theorem mem_of_getElemQ {α : Type} {l : List α} {x : α} {k : Nat}
    (h : l[k]? = some x) : x ∈ l := by
  obtain ⟨hk, hv⟩ := List.getElem?_eq_some.mp h
  exact hv ▸ List.getElem_mem hk

theorem getMetaAtPosition_single (a : Nat × Nat) (p : Nat) :
    getMetaAtPosition (flattenPairs [a]) p = some a.2 := by
  obtain ⟨o, m⟩ := a
  simp [getMetaAtPosition, flattenPairs, getMetaScan]

theorem getMetaAtPosition_cons_cons (a b : Nat × Nat) (rest : List (Nat × Nat))
    (p : Nat) :
    getMetaAtPosition (flattenPairs (a :: b :: rest)) p
      = if a.1 ≤ p ∧ p < b.1 then some a.2
        else getMetaAtPosition (flattenPairs (b :: rest)) p := by
  obtain ⟨o1, m1⟩ := a
  obtain ⟨o2, m2⟩ := b
  have hscan : getMetaScan p (flattenPairs ((o1, m1) :: (o2, m2) :: rest))
      = if o1 ≤ p ∧ p < o2 then some m1
        else getMetaScan p (flattenPairs ((o2, m2) :: rest)) := by
    show getMetaScan p (o1 :: m1 :: o2 :: m2 :: flattenPairs rest) = _
    rw [getMetaScan]
    rfl
  by_cases hc : o1 ≤ p ∧ p < o2
  · unfold getMetaAtPosition
    rw [hscan, if_pos hc, if_pos hc]
  · unfold getMetaAtPosition
    rw [hscan, if_neg hc, if_neg hc]
    cases hs : getMetaScan p (flattenPairs ((o2, m2) :: rest)) with
    | some m => rfl
    | none =>
      show (flattenPairs ((o1, m1) :: (o2, m2) :: rest)).getLast?
        = (flattenPairs ((o2, m2) :: rest)).getLast?
      show (o1 :: m1 :: o2 :: m2 :: flattenPairs rest).getLast?
        = (o2 :: m2 :: flattenPairs rest).getLast?
      rw [List.getLast?_cons_cons, List.getLast?_cons_cons]

theorem chainHead_le {rest : List (Nat × Nat)} {b x : Nat × Nat} {j : Nat}
    (hsorted : List.Chain' (fun u v : Nat × Nat => u.1 < v.1) (b :: rest))
    (hx : (b :: rest)[j]? = some x) : b.1 ≤ x.1 := by
  haveI : IsTrans (Nat × Nat) (fun u v : Nat × Nat => u.1 < v.1) :=
    ⟨fun _ _ _ h1 h2 => lt_trans h1 h2⟩
  have hp := List.chain'_iff_pairwise.mp hsorted
  have hmem := mem_of_getElemQ hx
  rcases List.mem_cons.mp hmem with h1 | h1
  · exact le_of_eq (congrArg Prod.fst h1.symm)
  · exact le_of_lt ((List.pairwise_cons.mp hp).1 x h1)

theorem packed_lookup_aux (p : Nat) :
    ∀ (rest : List (Nat × Nat)) (a : Nat × Nat),
      List.Chain' (fun u v : Nat × Nat => u.1 < v.1) (a :: rest) →
      (∀ k x y, (a :: rest)[k]? = some x → (a :: rest)[k + 1]? = some y →
        x.1 ≤ p → p < y.1 →
        getMetaAtPosition (flattenPairs (a :: rest)) p = some x.2)
      ∧ ((∀ k x y, (a :: rest)[k]? = some x → (a :: rest)[k + 1]? = some y →
          ¬(x.1 ≤ p ∧ p < y.1)) →
        getMetaAtPosition (flattenPairs (a :: rest)) p
          = some ((a :: rest).getLast (by simp)).2) := by
  intro rest
  induction rest with
  | nil =>
    intro a _
    constructor
    · intro k x y _ hy _ _
      simp at hy
    · intro _
      simpa using getMetaAtPosition_single a p
  | cons b rest ih =>
    intro a hc
    have hctail : List.Chain' (fun u v : Nat × Nat => u.1 < v.1) (b :: rest) :=
      hc.tail
    constructor
    · intro k x y hx hy hxp hpy
      rw [getMetaAtPosition_cons_cons]
      by_cases hab : a.1 ≤ p ∧ p < b.1
      · rw [if_pos hab]
        cases k with
        | zero =>
          have hxa : x = a := by simpa using hx.symm
          rw [hxa]
        | succ j =>
          have hx2 : (b :: rest)[j]? = some x := by simpa using hx
          have hbx := chainHead_le hctail hx2
          omega
      · rw [if_neg hab]
        cases k with
        | zero =>
          have hxa : x = a := by simpa using hx.symm
          have hyb : y = b := by simpa using hy.symm
          exact absurd ⟨hxa ▸ hxp, hyb ▸ hpy⟩ hab
        | succ j =>
          exact (ih b hctail).1 j x y (by simpa using hx) (by simpa using hy) hxp hpy
    · intro hno
      rw [getMetaAtPosition_cons_cons]
      have hab : ¬(a.1 ≤ p ∧ p < b.1) := hno 0 a b (by simp) (by simp)
      rw [if_neg hab]
      have h2 := (ih b hctail).2
        (fun k x y hx hy => hno (k + 1) x y (by simpa using hx) (by simpa using hy))
      rw [h2, List.getLast_cons_cons]

/-- Claim C3: over a non-empty packed token stream (flat alternating
(offset, packedMetadata) pairs with strictly increasing offsets) the
metadata lookup returns the packed value of the pair whose interval
`[offset_k, offset_(k+1))` contains the position, and when no recorded
interval contains the position (in particular any position at or beyond the
last recorded offset) it returns the last packed value in the stream. -/
theorem packed_metadata_lookup (ps : List (Nat × Nat)) (p : Nat)
    (hne : ps ≠ [])
    (hsorted : List.Chain' (fun u v : Nat × Nat => u.1 < v.1) ps) :
    (∀ k x y, ps[k]? = some x → ps[k + 1]? = some y →
      x.1 ≤ p → p < y.1 →
      getMetaAtPosition (flattenPairs ps) p = some x.2)
    ∧ ((∀ k x y, ps[k]? = some x → ps[k + 1]? = some y →
        ¬(x.1 ≤ p ∧ p < y.1)) →
      getMetaAtPosition (flattenPairs ps) p = some (ps.getLast hne).2) := by
  cases ps with
  | nil => exact absurd rfl hne
  | cons a rest => exact packed_lookup_aux p rest a hsorted

/-- Witness for claim C3: with stream `[(0,5),(2,7)]`, position 1 lies in
`[0,2)` and yields 5, while position 3 lies past the last offset and yields
the last packed value 7. -/
theorem packed_metadata_lookup_witness :
    getMetaAtPosition (flattenPairs [(0, 5), (2, 7)]) 1 = some 5
    ∧ getMetaAtPosition (flattenPairs [(0, 5), (2, 7)]) 3 = some 7 := by
  constructor
  · exact (packed_metadata_lookup [(0, 5), (2, 7)] 1 (by decide)
      (List.chain'_pair.mpr (by decide))).1
      0 (0, 5) (2, 7) (by decide) (by decide) (by decide) (by decide)
  · apply (packed_metadata_lookup [(0, 5), (2, 7)] 3 (by decide)
      (List.chain'_pair.mpr (by decide))).2
    intro k x y hx hy
    match k with
    | 0 =>
      have hx2 : x = (0, 5) := by simpa using hx.symm
      have hy2 : y = (2, 7) := by simpa using hy.symm
      subst hx2; subst hy2; decide
    | Nat.succ j =>
      have hnone : ([(0, 5), (2, 7)] : List (Nat × Nat))[j + 1 + 1]? = none := by
        apply List.getElem?_eq_none; simp
      rw [hnone] at hy; cases hy

theorem lookup_isSome_iff_mem_keys :
    ∀ (m : List (String × String)) (c : String),
      (m.lookup c).isSome = true ↔ c ∈ m.map Prod.fst := by
  intro m c
  induction m with
  | nil => simp [List.lookup]
  | cons p rest ih =>
    obtain ⟨k, v⟩ := p
    by_cases h : c = k
    · subst h; simp [List.lookup]
    · have hbeq : (c == k) = false := beq_false_of_ne h
      simp [List.lookup, hbeq, ih, h]

theorem classMap_keys_eq :
    ∀ (entries : List (Option String)) (m : List (String × String)) (n : Nat),
      ((entries.foldl createClassNameMapStep (m, n)).1).map Prod.fst
        = ((entries.filter truthyForeground).map
            (fun fg => jsToUpper (fg.getD ""))).foldl insertFirst (m.map Prod.fst) := by
  intro entries
  induction entries with
  | nil => intro m n; rfl
  | cons e rest ih =>
    intro m n
    by_cases ht : truthyForeground e = true
    · rw [List.foldl_cons, List.filter_cons_of_pos ht, List.map_cons, List.foldl_cons]
      by_cases hm : ((m.lookup (jsToUpper (e.getD ""))).isSome) = true
      · have hstep : createClassNameMapStep (m, n) e = (m, n) := by
          unfold createClassNameMapStep
          rw [if_pos ht, if_pos hm]
        have hins : insertFirst (m.map Prod.fst) (jsToUpper (e.getD ""))
            = m.map Prod.fst := by
          unfold insertFirst
          rw [if_pos ((lookup_isSome_iff_mem_keys m _).mp hm)]
        rw [hstep, hins, ih m n]
      · have hstep : createClassNameMapStep (m, n) e
            = (m ++ [(jsToUpper (e.getD ""), "mtk" ++ toString n)], n + 1) := by
          unfold createClassNameMapStep
          rw [if_pos ht, if_neg hm]
        have hnotmem : jsToUpper (e.getD "") ∉ m.map Prod.fst := by
          intro hmem
          exact hm ((lookup_isSome_iff_mem_keys m _).mpr hmem)
        have hins : insertFirst (m.map Prod.fst) (jsToUpper (e.getD ""))
            = m.map Prod.fst ++ [jsToUpper (e.getD "")] := by
          unfold insertFirst
          rw [if_neg hnotmem]
        rw [hstep, hins, ih]
        simp
    · have hstep : createClassNameMapStep (m, n) e = (m, n) := by
        unfold createClassNameMapStep
        rw [if_neg ht]
      rw [List.foldl_cons, hstep,
        List.filter_cons_of_neg (by simpa using ht), ih m n]

theorem classMap_values_eq :
    ∀ (entries : List (Option String)) (m : List (String × String)),
      m.map Prod.snd
          = (List.range m.length).map (fun i => "mtk" ++ toString i) →
      ((entries.foldl createClassNameMapStep (m, m.length)).1).map Prod.snd
        = (List.range ((entries.foldl createClassNameMapStep (m, m.length)).1).length).map
            (fun i => "mtk" ++ toString i) := by
  intro entries
  induction entries with
  | nil => intro m hm; exact hm
  | cons e rest ih =>
    intro m hm
    by_cases ht : truthyForeground e = true
    · by_cases hmem : ((m.lookup (jsToUpper (e.getD ""))).isSome) = true
      · have hstep : createClassNameMapStep (m, m.length) e = (m, m.length) := by
          unfold createClassNameMapStep
          rw [if_pos ht, if_pos hmem]
        rw [List.foldl_cons, hstep]
        exact ih m hm
      · have hstep : createClassNameMapStep (m, m.length) e
            = (m ++ [(jsToUpper (e.getD ""), "mtk" ++ toString m.length)],
               m.length + 1) := by
          unfold createClassNameMapStep
          rw [if_pos ht, if_neg hmem]
        rw [List.foldl_cons, hstep]
        have hlen : (m ++ [(jsToUpper (e.getD ""), "mtk" ++ toString m.length)]).length
            = m.length + 1 := by simp
        have hm2 : (m ++ [(jsToUpper (e.getD ""), "mtk" ++ toString m.length)]).map Prod.snd
            = (List.range (m ++ [(jsToUpper (e.getD ""),
                "mtk" ++ toString m.length)]).length).map
              (fun i => "mtk" ++ toString i) := by
          rw [hlen, List.range_succ, List.map_append, List.map_append, hm]
          simp
        have := ih (m ++ [(jsToUpper (e.getD ""), "mtk" ++ toString m.length)]) hm2
        rw [hlen] at this
        exact this
    · have hstep : createClassNameMapStep (m, m.length) e = (m, m.length) := by
        unfold createClassNameMapStep
        rw [if_neg ht]
      rw [List.foldl_cons, hstep]
      exact ih m hm

theorem insertFirst_nodup (acc : List String) (c : String) (h : acc.Nodup) :
    (insertFirst acc c).Nodup := by
  unfold insertFirst
  by_cases hm : c ∈ acc
  · rw [if_pos hm]; exact h
  · rw [if_neg hm]
    simpa [List.nodup_append] using ⟨h, hm⟩

theorem foldl_insertFirst_nodup :
    ∀ (colors : List String) (acc : List String), acc.Nodup →
      (colors.foldl insertFirst acc).Nodup := by
  intro colors
  induction colors with
  | nil => intro acc h; exact h
  | cons c rest ih => intro acc h; exact ih _ (insertFirst_nodup acc c h)

/-- Claim C7: `createClassNameMap` processes the virtual list
`[default-foreground-entry] ++ theme.tokenColors` in order (the default
foreground being `colors["editor.foreground"]` or `"#000000"` when absent);
its keys are exactly the uppercased non-empty foregrounds of that list in
first-occurrence order (first occurrence wins, case-insensitive dedup via
uppercasing, hence no duplicate keys), its values are the sequential class
names `mtk0, mtk1, ...` in insertion order, and the function is pure and
deterministic. -/
theorem build_color_class_map (theme : PublicTheme) :
    (createClassNameMap theme).map Prod.fst
        = firstOccurrences (virtualForegrounds theme)
    ∧ (createClassNameMap theme).map Prod.snd
        = (List.range (createClassNameMap theme).length).map
            (fun i => "mtk" ++ toString i)
    ∧ ((createClassNameMap theme).map Prod.fst).Nodup
    ∧ ∀ theme2, theme = theme2 →
        createClassNameMap theme = createClassNameMap theme2 := by
  refine ⟨?_, ?_, ?_, ?_⟩
  · unfold createClassNameMap firstOccurrences virtualForegrounds
    exact classMap_keys_eq _ [] 0
  · unfold createClassNameMap
    exact classMap_values_eq _ [] rfl
  · unfold createClassNameMap
    rw [classMap_keys_eq _ [] 0]
    exact foldl_insertFirst_nodup _ [] List.nodup_nil
  · intro theme2 h
    rw [h]

theorem ruleStackAt_cons {S : Type} (g : Grammar S) (line : String)
    (rest : List String) (initState : S) :
    ∀ i : Nat,
      ruleStackAt g (line :: rest) initState (i + 1)
        = ruleStackAt g rest ((g.tokenizeLine2 line initState).2) i := by
  intro i
  induction i with
  | zero => rfl
  | succ j ih =>
    show (g.tokenizeLine2 ((line :: rest).getD (j + 1) "")
        (ruleStackAt g (line :: rest) initState (j + 1))).2 = _
    rw [ih]
    rfl

theorem specLineHTML_cons {S : Type} (g : Grammar S)
    (classNameMap : List (String × String)) (colorMap : List String)
    (line : String) (rest : List String) (initState : S) (i : Nat) :
    specLineHTML g classNameMap colorMap (line :: rest) initState (i + 1)
      = specLineHTML g classNameMap colorMap rest
          ((g.tokenizeLine2 line initState).2) i := by
  unfold specLineHTML
  rw [ruleStackAt_cons]
  rfl

theorem highlightLines_eq_spec {S : Type} (g : Grammar S)
    (classNameMap : List (String × String)) (colorMap : List String) :
    ∀ (text : List String) (initState : S),
      highlightLines g classNameMap colorMap initState text
        = (List.range text.length).map
            (specLineHTML g classNameMap colorMap text initState) := by
  intro text
  induction text with
  | nil => intro initState; rfl
  | cons line rest ih =>
    intro initState
    rw [highlightLines, ih ((g.tokenizeLine2 line initState).2),
      List.length_cons, List.range_succ_eq_map, List.map_cons, List.map_map]
    congr 1
    apply List.map_congr_left
    intro i _
    exact (specLineHTML_cons g classNameMap colorMap line rest initState i).symm

/-- Claim C1: `highlightText` processes the lines strictly in order from the
initial sentinel state: line `i` is fed, with the identical state `state_i`,
to both the packed-metadata call (`tokenizeLine2`) and the character-offset
call (`tokenizeLine`), the packed call's `nextState` becomes `state_(i+1)`,
each line's segments are rendered to one HTML string by the segment
renderer, the per-line strings are joined with a single newline, and the
result is wrapped in `<pre><code>` and `</code></pre>`. -/
theorem highlight_text_spec {S : Type} (g : Grammar S)
    (classNameMap : List (String × String)) (colorMap : List String)
    (initState : S) (text : List String) :
    highlightText g classNameMap colorMap initState text
      = "<pre><code>"
          ++ String.intercalate "\n"
            ((List.range text.length).map
              (specLineHTML g classNameMap colorMap text initState))
          ++ "</code></pre>" := by
  unfold highlightText
  rw [highlightLines_eq_spec]

/-- Claim C8 (code evaluation): the table lookup is exact and case-sensitive
(`"js"` hits its entry; `"JS"` falls back to plain text with one diagnostic
containing the tag; `""` falls back silently; `"foobar"` falls back with one
diagnostic), but a tag naming an `Object.prototype` property slips through
the `in` guard: `syntaxName "toString"` evaluates to the inherited property
(a function object, not a grammar id) with no diagnostic, instead of the
plain-text grammar id plus one diagnostic the claim requires for every
non-empty tag outside the table. -/
theorem syntax_name_behaviour :
    syntaxName "js" = (SyntaxNameResult.grammar "source.js", [])
    ∧ syntaxName "JS" = (SyntaxNameResult.grammar "text.plain",
        ["Unsupported grammar <JS>. Falling back to plain text"])
    ∧ syntaxName "" = (SyntaxNameResult.grammar "text.plain", [])
    ∧ syntaxName "foobar" = (SyntaxNameResult.grammar "text.plain",
        ["Unsupported grammar <foobar>. Falling back to plain text"])
    ∧ syntaxName "toString"
        = (SyntaxNameResult.inheritedProperty "toString", []) := by
  refine ⟨?_, ?_, ?_, ?_, ?_⟩ <;> decide

/-- Claim C9 (counterexample): with an empty color table and class-name map
the foreground id decoded from metadata 0 is unmapped, yet highlighting
proceeds silently — the segment's class list is `[none]` (`undefined` in
the source) and the rendered span carries an empty class attribute; no
assertion or fatal error occurs anywhere on this path. -/
theorem unmapped_foreground_counterexample :
    resolveSegmentClassNames [] [] (getTokenDataFromMetadata 0) = [none]
    ∧ codeToHTML "x" [⟨0, 1, [none]⟩] = "<span class=\"\">x</span>" := by
  exact ⟨rfl, by decide⟩

/-- Claim C9 (amended): when the decoded foreground id has no entry in the
color table / class-name map (index out of range or unmapped color), the
implementation does not fail loudly: it silently places `undefined`
(`none`) at the head of the segment's class list, which the renderer then
emits as an empty class attribute. -/
theorem unmapped_foreground_silent (classNameMap : List (String × String))
    (colorMap : List String) (metadata : DecodedTokenMeta)
    (h : (colorMap.get? metadata.foreground).bind
        (fun color => classNameMap.lookup color) = none) :
    (resolveSegmentClassNames classNameMap colorMap metadata).head? = some none := by
  unfold resolveSegmentClassNames
  rw [h]
  rfl

/-- Witness for the amended claim C9 at a concrete input. -/
theorem unmapped_foreground_silent_witness :
    ((([] : List String).get? (getTokenDataFromMetadata 0).foreground).bind
        (fun color => ([] : List (String × String)).lookup color) = none)
    ∧ (resolveSegmentClassNames [] [] (getTokenDataFromMetadata 0)).head?
        = some none :=
  ⟨rfl, unmapped_foreground_silent [] [] (getTokenDataFromMetadata 0) rfl⟩

end SSGen
